import Mathlib

namespace FuzzArt

/-!
Shallow embedding of the closed-loop artifact-discovery session controller
(`core/tracer/ebpf_engine.py`, `core/fuzzing/orchestrator.py`,
`core/fuzzing/ipc.py`, `core/fuzzing/gui/smart_tester.py`,
`core/fuzzing/gui/actions/library.py`, `core/metadata/extractor.py`),
together with theorems settling the specification claims about it.

Python strings are modelled as Lean `String`, Python `pat in s` substring
tests as an executable substring check, floats as `ℚ`, and the stateful
loops as explicit folds over input scripts.
-/


/-! ## String helpers (Python `in`, `lower`, slicing, `endswith`) -/


/-- `listPreB pat l` is Python-style: `l` starts with `pat`. -/
def listPreB : List Char → List Char → Bool
  | [], _ => true
  | _ :: _, [] => false
  | a :: as, b :: bs => a = b && listPreB as bs

/-- `listSubB pat l`: `pat` occurs as a contiguous sublist of `l`
(the semantics of Python `pat in l` on strings). -/
def listSubB : List Char → List Char → Bool
  | pat, [] => pat.isEmpty
  | pat, l@(_ :: bs) => listPreB pat l || listSubB pat bs

/-- Python `pat in hay` on strings (substring containment). -/
def pyIn (pat hay : String) : Bool := listSubB pat.toList hay.toList

/-- Python `s.lower()` (per-character lowering). -/
def pyLower (s : String) : String := String.mk (s.toList.map Char.toLower)

/-- Python `s[:n]`. -/
def pyTake (n : ℕ) (s : String) : String := String.mk (s.toList.take n)

/-- Python `s.endswith(suf)`. -/
def endsWithB (suf s : String) : Bool := listPreB suf.toList.reverse s.toList.reverse

/-! ## Event Tracer (`core/tracer/ebpf_engine.py`)

`EBPFTracer._process_event` receives a raw kernel event `(pid, comm, fname,
type)`, applies the target-process filter, then the exclude (ignore) filter,
then the include (interest) filter, and only then appends a `FileEvent` to
`event_queue`.  `get_events` returns the queue contents and clears it. -/


/-- A raw kernel event as delivered to `_process_event` (already decoded). -/
structure RawEvent where
  pid : ℕ
  comm : String
  fname : String
  etype : ℕ
  deriving DecidableEq, Repr

/-- A filtered event as stored in `event_queue` (the Python dict
`py_event`); `timestamp` is the poll-thread clock reading. -/
structure FileEvent where
  timestamp : ℚ
  pid : ℕ
  process_name : String
  etype : String
  filename : String
  deriving DecidableEq, Repr

/-- `self.event_types.get(event.type, "UNKNOWN")`. -/
def typeName (n : ℕ) : String :=
  if n = 1 then "OPEN" else if n = 2 then "DELETE" else if n = 3 then "RENAME" else "UNKNOWN"

/-- The tracer's per-session filter configuration (`interest_patterns`,
`ignore_patterns`, `target_comm`). -/
structure TracerConfig where
  interest_patterns : List String
  ignore_patterns : List String
  target_comm : Option String
  deriving Repr

/-- `start_trace`: `self.target_comm = target_name.lower()[:15] if target_name else None`. -/
def startTraceComm (target_name : String) : Option String :=
  if target_name = "" then none else some (pyTake 15 (pyLower target_name))

/-- The process-name filter of `_process_event`:
`if self.target_comm and self.target_comm not in proc_name: return`. -/
def targetDrop (cfg : TracerConfig) (proc_name : String) : Bool :=
  match cfg.target_comm with
  | some t => !(pyIn t proc_name)
  | none => false

/-- `EBPFTracer._process_event`: appends the decoded event to the queue iff
it survives the target-process filter, the exclude filter and the include
filter, in that order. -/
def processEvent (cfg : TracerConfig) (queue : List FileEvent) (ts : ℚ) (raw : RawEvent) :
    List FileEvent :=
  let filename := raw.fname
  let proc_name := pyLower raw.comm
  if targetDrop cfg proc_name then queue
  else if cfg.ignore_patterns.any (fun ig => pyIn ig filename) then queue
  else if !(cfg.interest_patterns.any fun it => pyIn it filename) then queue
  else queue ++ [⟨ts, raw.pid, proc_name, typeName raw.etype, filename⟩]

/-- Process a whole timestamped raw-event stream, starting from a queue. -/
def processAllFrom (cfg : TracerConfig) (queue : List FileEvent)
    (raws : List (ℚ × RawEvent)) : List FileEvent :=
  raws.foldl (fun q tr => processEvent cfg q tr.1 tr.2) queue

/-- Raw-event stream processed from the empty queue. -/
def processAll (cfg : TracerConfig) (raws : List (ℚ × RawEvent)) : List FileEvent :=
  processAllFrom cfg [] raws

/-- `get_events`: returns everything buffered and clears the queue. -/
def getEvents (queue : List FileEvent) : List FileEvent × List FileEvent :=
  (queue, [])

/-- The filter property every queued event satisfies: no exclude pattern is
a substring of its path, and some include pattern is. -/
def filterPasses (cfg : TracerConfig) (e : FileEvent) : Prop :=
  (∀ ig ∈ cfg.ignore_patterns, pyIn ig e.filename = false) ∧
  (∃ it ∈ cfg.interest_patterns, pyIn it e.filename = true)

/-! ## Artifact report (`ArtifactDiscoverySession._analyze_results`)

At session teardown the controller folds the full accumulated event log
into a dict keyed by path; each event adds its syscall kind and process
name to the entry's sets; the cause action is computed only when the key
is first inserted.  The report is one entry per dict key. -/


/-- Adding an element to a Python `set`, modelled on ordered lists. -/
def sInsert (x : String) (xs : List String) : List String :=
  if x ∈ xs then xs else xs ++ [x]

/-- One parsed fuzzer-log action (`actions` in `_analyze_results`). -/
structure FuzzAction where
  time : ℚ
  action : String
  deriving DecidableEq, Repr

/-- The cause heuristic: the most recent action at most 5 seconds before
the event (`best_gap = 5.0`, reversed scan, break on first hit). -/
def causeOf (actions : List FuzzAction) (t : ℚ) : String :=
  match actions.reverse.find? (fun a => decide (0 ≤ t - a.time) && decide (t - a.time < 5)) with
  | some a => a.action
  | none => "Unknown (Background)"

/-- The per-path dict value (`syscalls`, `processes`, `cause_action`). -/
structure ArtifactData where
  syscalls : List String
  processes : List String
  cause_action : String
  deriving DecidableEq, Repr

/-- One `_analyze_results` loop iteration: create the entry on first
sight of the path, then add the event's kind and process to its sets. -/
def stepArtifact (actions : List FuzzAction) (acc : List (String × ArtifactData))
    (e : FileEvent) : List (String × ArtifactData) :=
  if acc.any (fun pr => decide (pr.1 = e.filename)) then
    acc.map fun pr =>
      if pr.1 = e.filename then
        (pr.1, ⟨sInsert e.etype pr.2.syscalls, sInsert e.process_name pr.2.processes,
                pr.2.cause_action⟩)
      else pr
  else
    acc ++ [(e.filename,
      ⟨sInsert e.etype [], sInsert e.process_name [], causeOf actions e.timestamp⟩)]

/-- `unique_artifacts` built from the whole event log. -/
def buildArtifacts (actions : List FuzzAction) (events : List FileEvent) :
    List (String × ArtifactData) :=
  events.foldl (stepArtifact actions) []

/-- One row of `artifact_footprint.json`. -/
structure ArtifactEntry where
  filepath : String
  cause_action : String
  interactions : List String
  accessed_by : List String
  exists_on_disk : Bool
  deriving DecidableEq, Repr

/-- The final report: one entry per dict key, in insertion order
(`onDisk` abstracts `os.path.exists`). -/
def analyzeReport (onDisk : String → Bool) (actions : List FuzzAction)
    (events : List FileEvent) : List ArtifactEntry :=
  (buildArtifacts actions events).map fun pr =>
    ⟨pr.1, pr.2.cause_action, pr.2.syscalls, pr.2.processes, onDisk pr.1⟩

/-! ## Exploration policy (`core/fuzzing/gui/smart_tester.py`)

`IntelligentFuzzer.__init__` sets `self.epsilon = 0.3`; no other write to
`epsilon` exists anywhere in the class, so the exploration rate read by
`choose_action` is this constant for the whole session.  The exploitation
branch is `sorted(self.q_values.items(), key=value, reverse=True)[0][0]`:
since Python's sort is stable and dict order is insertion order, this is
the first table entry attaining the maximal learned value. -/


/-- `self.epsilon = 0.3`. -/
def epsilon : ℚ := 3 / 10

/-- The exploration rate in effect at elapsed session time `t` (constant:
the code never updates `epsilon` after `__init__`). -/
def epsilonAt (_t : ℚ) : ℚ := epsilon

/-- First entry attaining the maximum, as a fold: replace the running best
only on a strictly larger value (= head of a stable descending sort). -/
def bestFrom : String → ℚ → List (String × ℚ) → String
  | a, _, [] => a
  | a, v, (b, w) :: rest => if v < w then bestFrom b w rest else bestFrom a v rest

/-- The exploitation branch of `choose_action`. -/
def chooseActionExploit : List (String × ℚ) → Option String
  | [] => none
  | (a, v) :: rest => some (bestFrom a v rest)

/-- The seeded Q-table of `__init__` (config hotkeys appended at 5.0). -/
def initQ (hotkeys : List String) : List (String × ℚ) :=
  [("ui_crawl", 10), ("ui_input", 8), ("nav_tab", 5), ("nav_escape", 5), ("random_click", 2)]
    ++ hotkeys.map (fun h => (h, 5))

/-- `update_q_table`: `new_q = old_q + alpha * reward`. -/
def updateQ (alpha oldq reward : ℚ) : ℚ := oldq + alpha * reward

/-- Modelled from the spec for comparison (C5): effective value = learned
value minus a fatigue penalty proportional to the per-action execution
count, with an extra multiplier when the action equals last tick's. -/
def effectiveValue (coef mult : ℚ) (cnt : String → ℕ) (last : Option String)
    (a : String) (v : ℚ) : ℚ :=
  v - coef * (cnt a : ℚ) * (if last = some a then mult else 1)

/-- Modelled from the spec for comparison (C5): argmax of effective value
(same tie-breaking as the code). -/
def chooseSpecExploit (coef mult : ℚ) (cnt : String → ℕ) (last : Option String)
    (q : List (String × ℚ)) : Option String :=
  chooseActionExploit (q.map fun av => (av.1, effectiveValue coef mult cnt last av.1 av.2))

/-- Modelled from the spec for comparison (C4): the claimed decay shape
`ε(t) = max(εmin, ε0 − (ε0−εmin)·(t/duration))`. -/
def epsilonSpec (e0 emin duration t : ℚ) : ℚ :=
  max emin (e0 - (e0 - emin) * (t / duration))

/-! ## Novelty / revisit state reward (`IntelligentFuzzer.start`)

Each tick increments `state_visits[current_state]`, then pays
`state_reward = 50` on the first visit of a non-sentinel state and
`-1.0 * (visit_count - 1)` on later visits (0 for the sentinel
`"STATE_UNKNOWN"`). -/


/-- The per-tick state reward as a function of the state and its
post-increment visit count. -/
def stateRewardOf (s : String) (c : ℕ) : ℚ :=
  if s = "STATE_UNKNOWN" then 0
  else if c = 1 then 50
  else -1 * ((c : ℚ) - 1)

/-- The reward stream of the main loop, given the per-tick observed states
and the running `state_visits` counter. -/
def tickRewardsFrom (vis : String → ℕ) : List String → List ℚ
  | [] => []
  | s :: rest =>
    stateRewardOf s (vis s + 1) ::
      tickRewardsFrom (fun t => if t = s then vis s + 1 else vis t) rest

/-- The reward stream of a session (counters start at zero). -/
def tickRewards (ss : List String) : List ℚ := tickRewardsFrom (fun _ => 0) ss

/-! ## Feedback channel reader (`core/fuzzing/ipc.py`)

`FeedbackClient.get_artifact_count` opens a socket with
`settimeout(0.5)`, sends `GET`, decodes the reply with `int(...)`; the
whole body is wrapped in `try/except` returning `0` on any failure. -/


/-- The observable outcome of one socket round-trip. -/
inductive NetOutcome where
  | refused
  | timedOut
  | response (data : String)
  deriving DecidableEq, Repr

/-- Decimal value of a digit string. -/
def digitsVal (l : List Char) : ℤ :=
  (l.foldl (fun (acc : ℕ) c => acc * 10 + (c.toNat - 48)) 0 : ℕ)

/-- Python `int(s)` on an optional-sign decimal string (no surrounding
whitespace); `none` models the `ValueError` on malformed input. -/
def pyParseInt (s : String) : Option ℤ :=
  match s.toList with
  | [] => none
  | '-' :: rest =>
    if rest ≠ [] ∧ rest.all Char.isDigit then some (-(digitsVal rest)) else none
  | chars =>
    if chars.all Char.isDigit then some (digitsVal chars) else none

/-- `s.settimeout(0.5)`: the configured client timeout in seconds. -/
def clientTimeout : ℚ := 1 / 2

/-- `FeedbackClient.get_artifact_count`: the parsed reply on success, `0`
on any exception (connection refused, timeout, malformed response). -/
def get_artifact_count (o : NetOutcome) : ℤ :=
  match o with
  | .refused => 0
  | .timedOut => 0
  | .response data =>
    match pyParseInt data with
    | some n => n
    | none => 0

/-- Modelled from the spec for comparison (C7): `Fetch() -> (score, ok)`
returning the safe default `(0, false)` on any failure. -/
def fetchSpec (o : NetOutcome) : ℤ × Bool :=
  match o with
  | .refused => (0, false)
  | .timedOut => (0, false)
  | .response data =>
    match pyParseInt data with
    | some n => (n, true)
    | none => (0, false)

/-! ## Session startup (`EBPFTracer.start_trace` + `run`'s prefix)

`start_trace` wraps the BPF attach in `try/except`: on failure it logs
via `logger.error` and sets `self.running = False`, raising nothing.
`run` calls `start_trace`, never reads `running`, and proceeds to launch
the target and the fuzzer unconditionally. -/


/-- The tracer state after `start_trace` given whether the attach
succeeded (`error_logged` mirrors the `logger.error` call). -/
structure TracerStartState where
  running : Bool
  error_logged : Bool
  deriving DecidableEq, Repr

/-- `start_trace`'s observable outcome. -/
def start_trace (attach_ok : Bool) : TracerStartState :=
  if attach_ok then ⟨true, false⟩ else ⟨false, true⟩

/-- The control-flow milestones of `ArtifactDiscoverySession.run` up to
the monitoring loop. -/
inductive RunOp where
  | setupInputs
  | startIpc
  | startTracer
  | launchTarget
  | launchFuzzer
  | monitorLoop
  deriving DecidableEq, Repr

/-- `run`'s straight-line prefix: the attach outcome is never consulted;
the target launch is attempted unconditionally, and only a failed target
launch (`if not self.proc: return`) stops the session early. -/
def runPrefixOps (_attach_ok : Bool) (target_launch_ok : Bool) : List RunOp :=
  [RunOp.setupInputs, RunOp.startIpc, RunOp.startTracer] ++
    (if target_launch_ok
     then [RunOp.launchTarget, RunOp.launchFuzzer, RunOp.monitorLoop]
     else [RunOp.launchTarget])

/-! ## Self-healing monitoring loop (`run`, crash-recovery branch)

Per tick: if the target died — kill the fuzzer if it is alive, reset the
profile directory, relaunch the target (abort the loop when that fails),
wait, relaunch the fuzzer; then, separately, if the fuzzer process is
dead, relaunch only the fuzzer. -/


/-- Supervisor operations a tick can perform. -/
inductive SupOp where
  | killFuzzer
  | resetInputs
  | launchTarget
  | launchFuzzer
  deriving DecidableEq, Repr

/-- One monitoring-loop iteration: inputs are the poll outcomes (target
alive, fuzzer alive at the crash check, target relaunch success, fuzzer
dead at the fuzzer check); output is the performed operations and whether
the session aborted (`break`). -/
def monitorTick (target_alive fuzzer_alive relaunch_ok fuzzer_dead_after : Bool) :
    List SupOp × Bool :=
  if target_alive then
    ((if fuzzer_dead_after then [SupOp.launchFuzzer] else []), false)
  else
    let pre := (if fuzzer_alive then [SupOp.killFuzzer] else []) ++
      [SupOp.resetInputs, SupOp.launchTarget]
    if relaunch_ok then
      (pre ++ [SupOp.launchFuzzer] ++
        (if fuzzer_dead_after then [SupOp.launchFuzzer] else []), false)
    else (pre, true)

/-! ## UI crawler BFS (`FuzzerActions._get_interactable_elements`)

Manual BFS over the live accessibility tree: queue of `(node, depth)`
pairs starting at `(start, 0)`, a visited set keyed by the
`(name, roleName, position)` identity, a hard scan ceiling
`scan_limit = 100` checked before each pop, candidate registration for
allow-listed roles with an on-screen bounding box, and children enqueued
at `depth + 1` only while `depth < 3`.  Attribute access that raises is a
`continue` (identity) or silent skip (candidate block).

The loop is phrased here as: skim the queue for the next scannable head
(unvisited, attributes readable) without consuming scan budget — exactly
the `continue` paths — then perform one budgeted scan step; the budget
`remaining` is the structural fuel, so the function is total even on
cyclic child graphs. -/


/-- The attributes of one accessibility node (`name`, `roleName`,
`position`, `size`); a node whose attribute access raises has none. -/
structure NodeAttr where
  name : String
  role : String
  px : ℤ
  py : ℤ
  w : ℤ
  h : ℤ
  deriving DecidableEq, Repr

/-- The remote accessibility forest: a child map (cycles allowed — remote
trees are not guaranteed acyclic) and per-node attributes. -/
structure UIForest where
  childrenOf : ℕ → List ℕ
  attrsOf : ℕ → Option NodeAttr

/-- The visited-set key: `(curr_node.name, curr_node.roleName,
str(curr_node.position))`. -/
def identOf (na : NodeAttr) : String × String × ℤ × ℤ :=
  (na.name, na.role, na.px, na.py)

/-- `target_roles` of the BFS crawler. -/
def targetRoles : List String :=
  ["push button", "menu", "page tab", "entry", "link", "document web", "section",
   "toggle button"]

/-- `scan_limit = 100`. -/
def scanLimit : ℕ := 100

/-- Candidate registration for a scanned node: allow-listed role,
positive size, position within the 1920×1080 display; score 1.0 plus 10.0
on a knowledge-base keyword hit; the interaction hash
`f"{name}_{role}_{x}_{y}"` is modelled as the tuple of its parts. -/
def candOf (kb : List String) (n : ℕ) (na : NodeAttr) :
    List (ℕ × ℚ × (String × String × ℤ × ℤ)) :=
  if na.role ∈ targetRoles ∧ 0 < na.w ∧ 0 < na.h ∧
      0 ≤ na.px ∧ na.px ≤ 1920 ∧ 0 ≤ na.py ∧ na.py ≤ 1080 then
    let name := pyLower na.name
    [(n, 1 + (if kb.any (fun k => pyIn k name) then 10 else 0),
      (name, na.role, na.px, na.py))]
  else []

/-- Skim the queue for the next scannable head: nodes whose identity
computation raises, or which were already visited, are dropped without
consuming scan budget (the loop's `continue` paths). -/
def popScannable (attrs : ℕ → Option NodeAttr)
    (visited : List (String × String × ℤ × ℤ)) :
    List (ℕ × ℕ) → Option ((ℕ × ℕ) × NodeAttr × List (ℕ × ℕ))
  | [] => none
  | (n, d) :: rest =>
    match attrs n with
    | none => popScannable attrs visited rest
    | some na =>
      if identOf na ∈ visited then popScannable attrs visited rest
      else some ((n, d), na, rest)

/-- The budgeted BFS: at most `remaining` scan steps; each step registers
the node as visited (and possibly as a candidate) and enqueues its
children at `depth + 1` when `depth < 3`.  Returns the scanned
`(node, depth)` list and the candidate list. -/
def bfsRun (F : UIForest) (kb : List String) :
    ℕ → List (ℕ × ℕ) → List (String × String × ℤ × ℤ) →
      List (ℕ × ℕ) × List (ℕ × ℚ × (String × String × ℤ × ℤ))
  | 0, _, _ => ([], [])
  | r + 1, queue, visited =>
    match popScannable F.attrsOf visited queue with
    | none => ([], [])
    | some ((n, d), na, rest) =>
      let next := if d < 3 then rest ++ (F.childrenOf n).map (fun c => (c, d + 1))
        else rest
      let res := bfsRun F kb r next (identOf na :: visited)
      ((n, d) :: res.1, candOf kb n na ++ res.2)

/-- `_get_interactable_elements` without the final score sort (the sort
only permutes candidates and visits nothing). -/
def getInteractable (F : UIForest) (kb : List String) (root : ℕ) :
    List (ℕ × ℕ) × List (ℕ × ℚ × (String × String × ℤ × ℤ)) :=
  bfsRun F kb scanLimit [(root, 0)] []

/-! ## Forensic scoring and the published cumulative score
(`MetadataExtractor.calculate_forensic_score`,
`ArtifactDiscoverySession.calculate_reward`, `run`'s publish step)

`calculate_forensic_score` returns 0.5 for a vanished path, 1.0 when the
scoring block raises, and otherwise 1.0 plus keyword/extension/entropy
bonuses.  `calculate_reward` sums per-event base + target bonus over a
drained batch and truncates with `int(...)`.  The loop keeps
`total_score`, adds each non-empty batch's reward, and publishes
`int(total_score)` via `FeedbackServer.update_count`. -/


/-- Per-file metadata as consumed by the target-rule checks (`size`,
stringified `content_summary`). -/
structure FileMeta where
  size : ℤ
  content_summary : String
  deriving DecidableEq, Repr

/-- The filesystem facts the scorer consults: existence, whether the
scoring `try` block raises, head-entropy, and `extract` metadata. -/
structure FsEnv where
  onDisk : String → Bool
  errored : String → Bool
  entropy : String → ℚ
  meta : String → Option FileMeta

/-- `high_value_keywords`. -/
def highValueKeywords : List String :=
  ["history", "login", "password", "credential", "token", "cookie",
   "session", "preferences", "local state", "wallet", "secret", "key"]

/-- The structured-data extensions checked with `endswith`. -/
def structuredExts : List String := [".db", ".sqlite", ".json", ".xml", ".conf", ".ini"]

/-- `MetadataExtractor.calculate_forensic_score`: 0.5 for a vanished
path, 1.0 when the scoring block raises, else 1.0 + 50 keyword + 20
extension + 10 high-entropy. -/
def calculate_forensic_score (env : FsEnv) (filepath : String) : ℚ :=
  if env.onDisk filepath = false then 1 / 2
  else if env.errored filepath then 1
  else
    1 + (if highValueKeywords.any (fun kw => pyIn kw (pyLower filepath)) then 50 else 0)
      + (if structuredExts.any (fun ext => endsWithB ext (pyLower filepath)) then 20 else 0)
      + (if 5 < env.entropy filepath then 10 else 0)

/-- One target-state rule: a literal path substring, or an object with an
optional `path`/`path_pattern` (collapsed to one optional substring),
optional `min_size`, optional `content_key`. -/
inductive TargetRule where
  | strRule (path : String)
  | dictRule (path : Option String) (min_size : Option ℤ) (content_key : Option String)
  deriving DecidableEq, Repr

/-- The `target_path` a rule contributes. -/
def rulePath : TargetRule → Option String
  | .strRule p => some p
  | .dictRule p _ _ => p

/-- One iteration of the target loop in `calculate_reward`: skip when no
path, skip when the path is not a substring of the event path, then the
optional `min_size` and `content_key` checks against `extract` metadata. -/
def ruleMatches (env : FsEnv) (fpath : String) (t : TargetRule) : Bool :=
  match rulePath t with
  | none => false
  | some tp =>
    if pyIn tp fpath = false then false
    else
      match t with
      | .strRule _ => true
      | .dictRule _ ms ck =>
        (match ms with
         | none => true
         | some m =>
           match env.meta fpath with
           | none => false
           | some meta => decide (m ≤ meta.size)) &&
        (match ck with
         | none => true
         | some key =>
           match env.meta fpath with
           | none => false
           | some meta => pyIn key meta.content_summary)

/-- `target_bonus`: 500.0 when some rule matches (the Python loop breaks
at the first match), else 0. -/
def targetBonus (env : FsEnv) (targets : List TargetRule) (fpath : String) : ℚ :=
  if targets.any (ruleMatches env fpath) then 500 else 0

/-- The per-event contribution `base_score + target_bonus`. -/
def perEventScore (env : FsEnv) (targets : List TargetRule) (e : FileEvent) : ℚ :=
  calculate_forensic_score env e.filename + targetBonus env targets e.filename

/-- Python `int(x)` on a float/rational: truncation toward zero. -/
def pyInt (q : ℚ) : ℤ := if q < 0 then -⌊-q⌋ else ⌊q⌋

/-- `calculate_reward`: accumulate per-event scores over the batch, then
`int(total_score)`. -/
def calculate_reward (env : FsEnv) (targets : List TargetRule)
    (events : List FileEvent) : ℤ :=
  pyInt (events.foldl (fun acc e => acc + perEventScore env targets e) 0)

/-- The values published over the feedback channel: per non-empty drained
batch, `total_score += reward` then `update_count(int(total_score))`
(`total_score` accumulates integer rewards, so it is an integer). -/
def publishedScores (env : FsEnv) (targets : List TargetRule) :
    ℤ → List (List FileEvent) → List ℤ
  | _, [] => []
  | total, batch :: rest =>
    if batch.isEmpty then publishedScores env targets total rest
    else
      (total + calculate_reward env targets batch) ::
        publishedScores env targets (total + calculate_reward env targets batch) rest

/-- A session's published score sequence (`total_score` starts at 0). -/
def sessionPublished (env : FsEnv) (targets : List TargetRule)
    (batches : List (List FileEvent)) : List ℤ :=
  publishedScores env targets 0 batches

/-! ## Theorems -/

theorem listPreB_iff (pat l : List Char) : listPreB pat l = true ↔ pat <+: l := by
  induction pat generalizing l with
  | nil => simp [listPreB]
  | cons a as ih =>
    cases l with
    | nil => simp [listPreB]
    | cons b bs =>
      simp only [listPreB, Bool.and_eq_true, decide_eq_true_eq, ih bs]
      constructor
      · rintro ⟨rfl, h⟩
        obtain ⟨t, rfl⟩ := h
        exact ⟨t, rfl⟩
      · intro h
        obtain ⟨t, ht⟩ := h
        simp only [List.cons_append, List.cons.injEq] at ht
        exact ⟨ht.1, ⟨t, ht.2⟩⟩

theorem listSubB_iff (pat l : List Char) : listSubB pat l = true ↔ pat <:+: l := by
  induction l with
  | nil =>
    simp only [listSubB, List.isEmpty_iff]
    constructor
    · rintro rfl; exact List.infix_rfl
    · intro h
      obtain ⟨s, t, hst⟩ := h
      exact List.append_eq_nil.mp ((List.append_eq_nil.mp hst).1) |>.2
  | cons b bs ih =>
    simp only [listSubB, Bool.or_eq_true, listPreB_iff, ih]
    constructor
    · rintro (h | h)
      · exact h.isInfix
      · obtain ⟨s, t, hst⟩ := h
        exact ⟨b :: s, t, by simp [hst]⟩
    · intro h
      rcases h with ⟨s, t, hst⟩
      cases s with
      | nil => left; exact ⟨t, by simpa using hst⟩
      | cons c cs =>
        right
        refine ⟨cs, t, ?_⟩
        simp only [List.cons_append, List.cons.injEq] at hst
        exact hst.2

/-- `pyIn` agrees with the mathematical infix relation on character lists. -/
theorem pyIn_iff_infix (pat hay : String) :
    pyIn pat hay = true ↔ pat.toList <:+: hay.toList := listSubB_iff _ _

theorem processEvent_preserves (cfg : TracerConfig) (queue : List FileEvent)
    (ts : ℚ) (raw : RawEvent)
    (hq : ∀ e ∈ queue, filterPasses cfg e) :
    ∀ e ∈ processEvent cfg queue ts raw, filterPasses cfg e := by
  intro e he
  simp only [processEvent] at he
  split at he
  · exact hq e he
  · split at he
    · exact hq e he
    · split at he
      · exact hq e he
      · rename_i hign hint
        rcases List.mem_append.mp he with h | h
        · exact hq e h
        · rcases List.mem_singleton.mp h with rfl
          constructor
          · intro ig hig
            cases hv : pyIn ig raw.fname with
            | false => rfl
            | true => exact absurd (List.any_eq_true.mpr ⟨ig, hig, hv⟩) hign
          · have hint2 : cfg.interest_patterns.any (fun it => pyIn it raw.fname) = true := by
              by_contra hcon
              simp only [Bool.not_eq_true] at hcon
              simp [hcon] at hint
            rcases List.any_eq_true.mp hint2 with ⟨it, hit, hv⟩
            exact ⟨it, hit, hv⟩

theorem processAllFrom_preserves (cfg : TracerConfig) (raws : List (ℚ × RawEvent)) :
    ∀ queue, (∀ e ∈ queue, filterPasses cfg e) →
      ∀ e ∈ processAllFrom cfg queue raws, filterPasses cfg e := by
  induction raws with
  | nil => intro queue hq e he; exact hq e he
  | cons tr rest ih =>
    intro queue hq e he
    exact ih (processEvent cfg queue tr.1 tr.2)
      (processEvent_preserves cfg queue tr.1 tr.2 hq) e he

/-- C1. For every event returned by `get_events` after processing any raw
stream from an empty queue, the event's path contains no exclude pattern as
a substring (even when it also matches an include pattern) and contains at
least one include pattern as a substring: the event queue only ever holds
filter-passing events. -/
theorem tracer_drain_filter_invariant (cfg : TracerConfig)
    (raws : List (ℚ × RawEvent)) (e : FileEvent)
    (he : e ∈ (getEvents (processAll cfg raws)).1) :
    (∀ ig ∈ cfg.ignore_patterns, pyIn ig e.filename = false) ∧
    (∃ it ∈ cfg.interest_patterns, pyIn it e.filename = true) :=
  processAllFrom_preserves cfg raws [] (by intro e h; cases h) e he

/-- Witness for C1: a concrete run with the orchestrator's include/exclude
shapes; the passing event is drained and satisfies both filter clauses. -/
theorem tracer_drain_filter_invariant_witness :
    (∀ ig ∈ ["LOCK", "__pycache__"], pyIn ig "/home/u/places.sqlite" = false) ∧
    (∃ it ∈ ["/home", "/tmp"], pyIn it "/home/u/places.sqlite" = true) :=
  tracer_drain_filter_invariant
    ⟨["/home", "/tmp"], ["LOCK", "__pycache__"], none⟩
    [(0, ⟨42, "chrome", "/home/u/places.sqlite", 1⟩),
     (1, ⟨42, "chrome", "/home/u/Singleton.LOCK", 2⟩),
     (2, ⟨42, "chrome", "/etc/passwd", 1⟩)]
    ⟨0, 42, "chrome", "OPEN", "/home/u/places.sqlite"⟩
    (by decide)

theorem sInsert_mem (k x : String) (xs : List String) :
    k ∈ sInsert x xs ↔ k = x ∨ k ∈ xs := by
  unfold sInsert
  split
  · rename_i hx
    constructor
    · exact Or.inr
    · rintro (rfl | h)
      · exact hx
      · exact h
  · simp [List.mem_append, or_comm]

theorem anyKey_iff (l : List (String × ArtifactData)) (p : String) :
    (l.any fun pr => decide (pr.1 = p)) = true ↔ p ∈ l.map Prod.fst := by
  simp only [List.any_eq_true, decide_eq_true_eq, List.mem_map]

theorem stepArtifact_keys (actions : List FuzzAction) (acc : List (String × ArtifactData))
    (e : FileEvent) :
    (stepArtifact actions acc e).map Prod.fst =
      if e.filename ∈ acc.map Prod.fst then acc.map Prod.fst
      else acc.map Prod.fst ++ [e.filename] := by
  unfold stepArtifact
  by_cases hk : e.filename ∈ acc.map Prod.fst
  · rw [if_pos ((anyKey_iff acc e.filename).mpr hk), if_pos hk, List.map_map]
    apply List.map_congr_left
    intro pr _
    dsimp only [Function.comp]
    split <;> rfl
  · rw [if_neg (fun h => hk ((anyKey_iff acc e.filename).mp h)), if_neg hk, List.map_append]
    rfl

theorem stepArtifact_exists_syscall (actions : List FuzzAction)
    (acc : List (String × ArtifactData)) (e : FileEvent) (p k : String) :
    (∃ d, (p, d) ∈ stepArtifact actions acc e ∧ k ∈ d.syscalls) ↔
      ((∃ d, (p, d) ∈ acc ∧ k ∈ d.syscalls) ∨ (e.filename = p ∧ e.etype = k)) := by
  unfold stepArtifact
  by_cases hk : e.filename ∈ acc.map Prod.fst
  · rw [if_pos ((anyKey_iff acc e.filename).mpr hk)]
    constructor
    · rintro ⟨d, hd, hkd⟩
      rcases List.mem_map.mp hd with ⟨pr, hpr, hpr2⟩
      by_cases hpe : pr.1 = e.filename
      · rw [if_pos hpe] at hpr2
        have hp : p = pr.1 := by
          have := congrArg Prod.fst hpr2; simpa using this.symm
        have hd2 : d = ⟨sInsert e.etype pr.2.syscalls, sInsert e.process_name pr.2.processes,
            pr.2.cause_action⟩ := by
          have := congrArg Prod.snd hpr2; simpa using this.symm
        subst hd2
        rcases (sInsert_mem k e.etype pr.2.syscalls).mp hkd with rfl | hmem
        · exact Or.inr ⟨hpe.symm.trans hp.symm, rfl⟩
        · exact Or.inl ⟨pr.2, by rw [hp]; exact ⟨hpr, hmem⟩⟩
      · rw [if_neg hpe] at hpr2
        subst hpr2
        exact Or.inl ⟨d, hpr, hkd⟩
    · rintro (⟨d, hd, hkd⟩ | ⟨hfe, hke⟩)
      · by_cases hpe : p = e.filename
        · refine ⟨⟨sInsert e.etype d.syscalls, sInsert e.process_name d.processes,
            d.cause_action⟩, ?_, (sInsert_mem k e.etype d.syscalls).mpr (Or.inr hkd)⟩
          refine List.mem_map.mpr ⟨(p, d), hd, ?_⟩
          dsimp only
          rw [if_pos hpe]
        · refine ⟨d, ?_, hkd⟩
          refine List.mem_map.mpr ⟨(p, d), hd, ?_⟩
          dsimp only
          rw [if_neg hpe]
      · subst hfe
        rcases List.mem_map.mp hk with ⟨pr, hpr, hpr1⟩
        refine ⟨⟨sInsert e.etype pr.2.syscalls, sInsert e.process_name pr.2.processes,
          pr.2.cause_action⟩, ?_, (sInsert_mem k e.etype pr.2.syscalls).mpr (Or.inl hke.symm)⟩
        refine List.mem_map.mpr ⟨pr, hpr, ?_⟩
        rw [if_pos hpr1, hpr1]
  · rw [if_neg (fun h => hk ((anyKey_iff acc e.filename).mp h))]
    constructor
    · rintro ⟨d, hd, hkd⟩
      rcases List.mem_append.mp hd with h | h
      · exact Or.inl ⟨d, h, hkd⟩
      · rcases List.mem_singleton.mp h with heq
        have hp : e.filename = p := by
          have := congrArg Prod.fst heq; simpa using this.symm
        have hd2 : d = ⟨sInsert e.etype [], sInsert e.process_name [],
            causeOf actions e.timestamp⟩ := by
          have := congrArg Prod.snd heq; simpa using this
        subst hd2
        rcases (sInsert_mem k e.etype []).mp hkd with rfl | hmem
        · exact Or.inr ⟨hp, rfl⟩
        · cases hmem
    · rintro (⟨d, hd, hkd⟩ | ⟨hfe, hke⟩)
      · exact ⟨d, List.mem_append.mpr (Or.inl hd), hkd⟩
      · subst hfe
        exact ⟨⟨sInsert e.etype [], sInsert e.process_name [], causeOf actions e.timestamp⟩,
          List.mem_append.mpr (Or.inr (List.mem_singleton.mpr rfl)),
          (sInsert_mem k e.etype []).mpr (Or.inl hke.symm)⟩

theorem nodupKeys_unique {l : List (String × ArtifactData)}
    (h : (l.map Prod.fst).Nodup) {p : String} {d d' : ArtifactData}
    (h1 : (p, d) ∈ l) (h2 : (p, d') ∈ l) : d = d' := by
  induction l with
  | nil => cases h1
  | cons pr rest ih =>
    simp only [List.map_cons, List.nodup_cons] at h
    obtain ⟨hn, hrest⟩ := h
    rcases List.mem_cons.mp h1 with h1 | h1
    · rcases List.mem_cons.mp h2 with h2 | h2
      · have := h1.trans h2.symm
        exact congrArg Prod.snd this
      · exfalso
        apply hn
        have : pr.1 = p := (congrArg Prod.fst h1).symm
        rw [this]
        exact List.mem_map.mpr ⟨(p, d'), h2, rfl⟩
    · rcases List.mem_cons.mp h2 with h2 | h2
      · exfalso
        apply hn
        have : pr.1 = p := (congrArg Prod.fst h2).symm
        rw [this]
        exact List.mem_map.mpr ⟨(p, d), h1, rfl⟩
      · exact ih hrest h1 h2

theorem foldlArtifact_keys_nodup (actions : List FuzzAction) (events : List FileEvent) :
    ∀ acc, (acc.map Prod.fst).Nodup →
      ((events.foldl (stepArtifact actions) acc).map Prod.fst).Nodup := by
  induction events with
  | nil => intro acc h; exact h
  | cons e rest ih =>
    intro acc h
    rw [List.foldl_cons]
    apply ih
    rw [stepArtifact_keys]
    split
    · exact h
    · rename_i hne
      exact List.Nodup.append h (List.nodup_singleton _)
        (fun x hx => by
          intro hx1
          rcases List.mem_singleton.mp hx1 with rfl
          exact hne hx)

theorem foldlArtifact_keys_mem (actions : List FuzzAction) (events : List FileEvent) :
    ∀ acc p, (p ∈ (events.foldl (stepArtifact actions) acc).map Prod.fst ↔
      p ∈ acc.map Prod.fst ∨ p ∈ events.map FileEvent.filename) := by
  induction events with
  | nil => simp
  | cons e rest ih =>
    intro acc p
    rw [List.foldl_cons, ih, stepArtifact_keys]
    split
    · rename_i hin
      simp only [List.map_cons, List.mem_cons]
      constructor
      · rintro (h | h)
        · exact Or.inl h
        · exact Or.inr (Or.inr h)
      · rintro (h | rfl | h)
        · exact Or.inl h
        · exact Or.inl hin
        · exact Or.inr h
    · simp [List.mem_append, List.map_cons, or_assoc]

theorem foldlArtifact_exists_syscall (actions : List FuzzAction) (events : List FileEvent) :
    ∀ acc p k, ((∃ d, (p, d) ∈ events.foldl (stepArtifact actions) acc ∧ k ∈ d.syscalls) ↔
      ((∃ d, (p, d) ∈ acc ∧ k ∈ d.syscalls) ∨ ∃ e ∈ events, e.filename = p ∧ e.etype = k)) := by
  induction events with
  | nil => simp
  | cons e rest ih =>
    intro acc p k
    rw [List.foldl_cons, ih]
    constructor
    · rintro (h | h)
      · rcases (stepArtifact_exists_syscall actions acc e p k).mp h with h | h
        · exact Or.inl h
        · exact Or.inr ⟨e, List.mem_cons_self e rest, h⟩
      · rcases h with ⟨e1, he1, hp1⟩
        exact Or.inr ⟨e1, List.mem_cons_of_mem e he1, hp1⟩
    · rintro (h | ⟨e1, he1, hp1⟩)
      · exact Or.inl ((stepArtifact_exists_syscall actions acc e p k).mpr (Or.inl h))
      · rcases List.mem_cons.mp he1 with heq | he1b
        · rw [heq] at hp1
          exact Or.inl ((stepArtifact_exists_syscall actions acc e p k).mpr (Or.inr hp1))
        · exact Or.inr ⟨e1, he1b, hp1⟩

/-- C3. From any accumulated event log, the report built once at teardown
has pairwise-distinct paths, its paths are exactly the distinct observed
paths (so one entry per distinct path, as many entries as distinct paths),
and each entry's set of syscall kinds is the union of all kinds observed
for that path over the whole run. -/
theorem artifact_report_dedup_union (onDisk : String → Bool)
    (actions : List FuzzAction) (events : List FileEvent) :
    ((analyzeReport onDisk actions events).map ArtifactEntry.filepath).Nodup ∧
    (∀ p, p ∈ (analyzeReport onDisk actions events).map ArtifactEntry.filepath ↔
       p ∈ events.map FileEvent.filename) ∧
    (analyzeReport onDisk actions events).length =
      (events.map FileEvent.filename).dedup.length ∧
    (∀ entry ∈ analyzeReport onDisk actions events, ∀ k,
       k ∈ entry.interactions ↔
         ∃ e ∈ events, e.filename = entry.filepath ∧ e.etype = k) := by
  have hkeys : (analyzeReport onDisk actions events).map ArtifactEntry.filepath =
      (buildArtifacts actions events).map Prod.fst := by
    unfold analyzeReport
    rw [List.map_map]
    rfl
  have hnodup : ((buildArtifacts actions events).map Prod.fst).Nodup :=
    foldlArtifact_keys_nodup actions events [] (by simp)
  have hmem : ∀ p, p ∈ (buildArtifacts actions events).map Prod.fst ↔
      p ∈ events.map FileEvent.filename := by
    intro p
    have := foldlArtifact_keys_mem actions events [] p
    simpa [buildArtifacts] using this
  refine ⟨by rw [hkeys]; exact hnodup, by intro p; rw [hkeys]; exact hmem p, ?_, ?_⟩
  · have hlen1 : (analyzeReport onDisk actions events).length =
        ((buildArtifacts actions events).map Prod.fst).length := by
      unfold analyzeReport
      simp
    have hperm : List.Perm ((buildArtifacts actions events).map Prod.fst)
        ((events.map FileEvent.filename).dedup) := by
      refine (List.perm_ext_iff_of_nodup hnodup (List.nodup_dedup _)).mpr ?_
      intro p
      rw [hmem p, List.mem_dedup]
    rw [hlen1, hperm.length_eq]
  · intro entry hentry k
    rcases List.mem_map.mp hentry with ⟨pr, hpr, rfl⟩
    constructor
    · intro hk
      have hex : ∃ d, (pr.1, d) ∈ buildArtifacts actions events ∧ k ∈ d.syscalls :=
        ⟨pr.2, by simpa using hpr, hk⟩
      have := (foldlArtifact_exists_syscall actions events [] pr.1 k).mp hex
      simpa using this
    · intro hk
      have hex : ∃ d, (pr.1, d) ∈ buildArtifacts actions events ∧ k ∈ d.syscalls := by
        apply (foldlArtifact_exists_syscall actions events [] pr.1 k).mpr
        exact Or.inr hk
      rcases hex with ⟨d, hd, hkd⟩
      have : d = pr.2 := nodupKeys_unique hnodup hd (by simpa using hpr)
      subst this
      exact hkd

/-- Witness for C3: the spec's scenario — 5 events over 2 distinct paths
with overlapping paths and different syscall kinds — yields a 2-entry
report, and the entry for path `"/tmp/a"` holds the union of its kinds. -/
theorem artifact_report_dedup_union_witness :
    (analyzeReport (fun _ => false) []
      [⟨0, 1, "p", "OPEN", "/tmp/a"⟩, ⟨1, 1, "p", "DELETE", "/tmp/a"⟩,
       ⟨2, 1, "p", "OPEN", "/tmp/b"⟩, ⟨3, 1, "p", "RENAME", "/tmp/a"⟩,
       ⟨4, 1, "p", "RENAME", "/tmp/b"⟩]).length = 2 ∧
    ("DELETE" ∈ ArtifactEntry.interactions
        ⟨"/tmp/a", "Unknown (Background)", ["OPEN", "DELETE", "RENAME"], ["p"], false⟩ ↔
      ∃ e ∈ [FileEvent.mk 0 1 "p" "OPEN" "/tmp/a", ⟨1, 1, "p", "DELETE", "/tmp/a"⟩,
             ⟨2, 1, "p", "OPEN", "/tmp/b"⟩, ⟨3, 1, "p", "RENAME", "/tmp/a"⟩,
             ⟨4, 1, "p", "RENAME", "/tmp/b"⟩],
        e.filename = "/tmp/a" ∧ e.etype = "DELETE") := by
  constructor
  · exact ((artifact_report_dedup_union (fun _ => false) [] _).2.2.1).trans (by decide)
  · exact (artifact_report_dedup_union (fun _ => false) []
      [⟨0, 1, "p", "OPEN", "/tmp/a"⟩, ⟨1, 1, "p", "DELETE", "/tmp/a"⟩,
       ⟨2, 1, "p", "OPEN", "/tmp/b"⟩, ⟨3, 1, "p", "RENAME", "/tmp/a"⟩,
       ⟨4, 1, "p", "RENAME", "/tmp/b"⟩]).2.2.2
      ⟨"/tmp/a", "Unknown (Background)", ["OPEN", "DELETE", "RENAME"], ["p"], false⟩
      (by decide) "DELETE"

/-- C4 counterexample: `choose_action`'s exploration rate is the constant
`0.3`; it cannot equal the claimed linear decay for any initial value,
floor and duration with `εmin < ε0`, because the decay takes different
values at `t = 0` and `t = duration` while the code's rate does not. -/
theorem epsilon_decay_refuted :
    ¬ ∃ e0 emin duration : ℚ, 0 < duration ∧ emin < e0 ∧
      ∀ t : ℚ, 0 ≤ t → t ≤ duration → epsilonAt t = epsilonSpec e0 emin duration t := by
  rintro ⟨e0, emin, dur, hdur, hlt, h⟩
  have h0 := h 0 le_rfl hdur.le
  have hd := h dur hdur.le le_rfl
  rw [show epsilonSpec e0 emin dur 0 = e0 by
        unfold epsilonSpec
        rw [zero_div, mul_zero, sub_zero]
        exact max_eq_right hlt.le] at h0
  rw [show epsilonSpec e0 emin dur dur = emin by
        unfold epsilonSpec
        rw [div_self hdur.ne', mul_one]
        have : e0 - (e0 - emin) = emin := by ring
        rw [this, max_self]] at hd
  have : e0 = emin := h0.symm.trans hd
  exact absurd this (ne_of_gt hlt)

/-- C4 amended: the exploration rate used by action selection is the
constant `0.3` over the whole session; it is therefore (trivially)
monotonically non-increasing in session time and never drops below `0.3`. -/
theorem epsilon_constant_monotone (t1 t2 : ℚ) (_h : t1 ≤ t2) :
    epsilonAt t2 ≤ epsilonAt t1 ∧ epsilonAt t1 = 3 / 10 ∧ 3 / 10 ≤ epsilonAt t1 :=
  ⟨le_rfl, rfl, le_rfl⟩

/-- Witness for the amended C4 at `t1 = 0`, `t2 = 1`. -/
theorem epsilon_constant_monotone_witness :
    epsilonAt 1 ≤ epsilonAt 0 ∧ epsilonAt 0 = 3 / 10 ∧ 3 / 10 ≤ epsilonAt 0 :=
  epsilon_constant_monotone 0 1 (by norm_num)

theorem bestFrom_mem_max (rest : List (String × ℚ)) :
    ∀ (a : String) (v : ℚ), ∃ w, (bestFrom a v rest, w) ∈ (a, v) :: rest ∧
      ∀ bw ∈ (a, v) :: rest, bw.2 ≤ w := by
  induction rest with
  | nil =>
    intro a v
    refine ⟨v, List.mem_cons_self _ _, ?_⟩
    intro bw hbw
    rcases List.mem_singleton.mp hbw with rfl
    exact le_rfl
  | cons bw2 rest ih =>
    intro a v
    obtain ⟨b, w2⟩ := bw2
    rw [bestFrom]
    by_cases hv : v < w2
    · rw [if_pos hv]
      obtain ⟨w, hmem, hmax⟩ := ih b w2
      refine ⟨w, ?_, ?_⟩
      · rcases List.mem_cons.mp hmem with heq | hmem2
        · rw [heq]
          exact List.mem_cons_of_mem _ (List.mem_cons_self _ _)
        · exact List.mem_cons_of_mem _ (List.mem_cons_of_mem _ hmem2)
      · intro bw hbw
        rcases List.mem_cons.mp hbw with heq | hbw2
        · rw [heq]
          exact le_trans hv.le (hmax (b, w2) (List.mem_cons_self _ _))
        · exact hmax bw hbw2
    · rw [if_neg hv]
      obtain ⟨w, hmem, hmax⟩ := ih a v
      refine ⟨w, ?_, ?_⟩
      · rcases List.mem_cons.mp hmem with heq | hmem2
        · rw [heq]
          exact List.mem_cons_self _ _
        · exact List.mem_cons_of_mem _ (List.mem_cons_of_mem _ hmem2)
      · intro bw hbw
        rcases List.mem_cons.mp hbw with heq | hbw2
        · rw [heq]
          exact hmax (a, v) (List.mem_cons_self _ _)
        · rcases List.mem_cons.mp hbw2 with heq | hbw3
          · rw [heq]
            exact le_trans (not_lt.mp hv) (hmax (a, v) (List.mem_cons_self _ _))
          · exact hmax bw (List.mem_cons_of_mem _ hbw3)

/-- C5 amended: whenever the exploitation branch returns an action, that
action's raw learned value is maximal in the Q-table (ties resolved to the
earliest entry); no fatigue penalty or repeat multiplier enters, since the
fuzzer keeps no per-action execution counter at all. -/
theorem exploit_argmax (q : List (String × ℚ)) (a : String)
    (h : chooseActionExploit q = some a) :
    ∃ v, (a, v) ∈ q ∧ ∀ bw ∈ q, bw.2 ≤ v := by
  cases q with
  | nil => cases h
  | cons av rest =>
    obtain ⟨a0, v0⟩ := av
    have ha : bestFrom a0 v0 rest = a := by
      have := h
      rw [chooseActionExploit] at this
      exact Option.some.inj this
    obtain ⟨w, hmem, hmax⟩ := bestFrom_mem_max rest a0 v0
    rw [ha] at hmem
    exact ⟨w, hmem, hmax⟩

/-- Witness for the amended C5 on the seeded Q-table: the exploitation
branch picks `ui_crawl`, whose value 10 is maximal. -/
theorem exploit_argmax_witness :
    ∃ v, (("ui_crawl" : String), v) ∈ initQ [] ∧ ∀ bw ∈ initQ [], bw.2 ≤ v :=
  exploit_argmax (initQ []) "ui_crawl" (by decide)

/-- C5 counterexample: the exploitation branch cannot be the spec's
penalised argmax for any positive fatigue coefficient: with Q-table
`ui_crawl ↦ 10, ui_input ↦ 8` and a large enough execution count for
`ui_crawl`, the penalised argmax is `ui_input` while the code returns
`ui_crawl`. -/
theorem exploit_fatigue_refuted :
    ¬ ∃ coef mult : ℚ, 0 < coef ∧
      ∀ (q : List (String × ℚ)) (cnt : String → ℕ) (last : Option String),
        chooseActionExploit q = chooseSpecExploit coef mult cnt last q := by
  rintro ⟨coef, mult, hc, h⟩
  obtain ⟨n, hn⟩ := exists_nat_gt (2 / coef)
  have h2 : (2 : ℚ) < coef * n := by
    rw [mul_comm]
    exact (div_lt_iff₀ hc).mp hn
  have heq := h [("ui_crawl", 10), ("ui_input", 8)]
    (fun a => if a = "ui_crawl" then n else 0) none
  have hcode : chooseActionExploit [(("ui_crawl" : String), (10 : ℚ)), ("ui_input", 8)]
      = some "ui_crawl" := by
    show some (bestFrom "ui_crawl" 10 [("ui_input", 8)]) = some "ui_crawl"
    rw [bestFrom, if_neg (by norm_num : ¬(10 : ℚ) < 8)]
    rfl
  have hmap : (([(("ui_crawl" : String), (10 : ℚ)), ("ui_input", 8)]).map fun av =>
      (av.1, effectiveValue coef mult (fun a => if a = "ui_crawl" then n else 0) none av.1 av.2))
      = [("ui_crawl", 10 - coef * n), ("ui_input", 8)] := by
    simp only [List.map_cons, List.map_nil, effectiveValue, if_true,
      if_neg (by decide : ¬("ui_input" : String) = "ui_crawl"),
      if_neg (by decide : ¬(none : Option String) = some "ui_crawl"),
      if_neg (by decide : ¬(none : Option String) = some "ui_input")]
    norm_num
  have hspec : chooseSpecExploit coef mult (fun a => if a = "ui_crawl" then n else 0) none
      [("ui_crawl", 10), ("ui_input", 8)] = some "ui_input" := by
    rw [chooseSpecExploit, hmap]
    show some (bestFrom "ui_crawl" (10 - coef * n) [("ui_input", 8)]) = some "ui_input"
    rw [bestFrom, if_pos (by linarith : (10 : ℚ) - coef * n < 8)]
    rfl
  rw [hcode, hspec] at heq
  exact absurd (Option.some.inj heq) (by decide)

theorem tickRewardsFrom_getD (ss : List String) :
    ∀ (vis : String → ℕ) (i : ℕ), i < ss.length →
      (tickRewardsFrom vis ss).getD i 0 =
        stateRewardOf (ss.getD i "")
          (vis (ss.getD i "") + (ss.take (i + 1)).count (ss.getD i "")) := by
  induction ss with
  | nil => intro vis i h; cases h
  | cons s rest ih =>
    intro vis i h
    cases i with
    | zero =>
      simp only [tickRewardsFrom, List.getD_cons_zero, List.take_succ_cons, List.take_zero,
        List.count_cons, List.count_nil]
      norm_num
    | succ j =>
      have hj : j < rest.length := by
        simp only [List.length_cons] at h
        omega
      simp only [tickRewardsFrom, List.getD_cons_succ, List.take_succ_cons, List.count_cons]
      rw [ih _ j hj]
      by_cases hts : rest.getD j "" = s
      · rw [if_pos hts, hts]
        simp only [beq_self_eq_true, if_true]
        congr 1
        omega
      · rw [if_neg hts,
          show (s == rest.getD j "") = false from
            beq_eq_false_iff_ne.mpr (fun hc => hts hc.symm)]
        simp only [Bool.false_eq_true, if_false]
        norm_num

theorem tickRewards_length (ss : List String) :
    (tickRewards ss).length = ss.length := by
  suffices hgen : ∀ (vis : String → ℕ) (l : List String),
      (tickRewardsFrom vis l).length = l.length from hgen _ ss
  intro vis l
  induction l generalizing vis with
  | nil => rfl
  | cons s rest ih => simp [tickRewardsFrom, ih]

/-- C6. For every non-sentinel state `s` observed at tick `i` as its
`k`-th visit (`k` = occurrences of `s` among the first `i+1` ticks): the
tick's state reward is `+50` exactly when `k = 1` (the novelty bonus is
paid exactly once, on the first visit); for `k ≥ 2` it equals `-(k-1)`,
hence is `≤ 0`; and any later visit of `s` (larger visit count) receives a
strictly smaller reward. -/
theorem novelty_reward_once_then_decreasing (ss : List String) (s : String)
    (hs : s ≠ "STATE_UNKNOWN") (i : ℕ) (hi : i < ss.length)
    (hsi : ss.getD i "" = s) :
    ((tickRewards ss).getD i 0 = 50 ↔ (ss.take (i + 1)).count s = 1) ∧
    (2 ≤ (ss.take (i + 1)).count s →
      (tickRewards ss).getD i 0 = -(((ss.take (i + 1)).count s : ℚ) - 1) ∧
      (tickRewards ss).getD i 0 ≤ 0) ∧
    (∀ j, j < ss.length → ss.getD j "" = s →
      2 ≤ (ss.take (i + 1)).count s →
      (ss.take (i + 1)).count s < (ss.take (j + 1)).count s →
      (tickRewards ss).getD j 0 < (tickRewards ss).getD i 0) := by
  have hclosed : ∀ m, m < ss.length → ss.getD m "" = s →
      (tickRewards ss).getD m 0 = stateRewardOf s ((ss.take (m + 1)).count s) := by
    intro m hm hsm
    have := tickRewardsFrom_getD ss (fun _ => 0) m hm
    rw [hsm] at this
    simpa [tickRewards] using this
  rw [hclosed i hi hsi]
  set k := (ss.take (i + 1)).count s with hk
  refine ⟨?_, ?_, ?_⟩
  · unfold stateRewardOf
    rw [if_neg hs]
    constructor
    · intro h50
      by_contra hk1
      rw [if_neg hk1] at h50
      have hge : (0 : ℚ) ≤ (k : ℚ) := Nat.cast_nonneg k
      have : (-1 : ℚ) * ((k : ℚ) - 1) ≤ 1 := by nlinarith
      rw [h50] at this
      norm_num at this
    · intro h1
      rw [if_pos h1]
  · intro h2
    unfold stateRewardOf
    rw [if_neg hs, if_neg (by omega : ¬k = 1)]
    have hcast : (2 : ℚ) ≤ (k : ℚ) := by exact_mod_cast h2
    constructor
    · ring
    · nlinarith
  · intro j hj hsj h2 hkj
    rw [hclosed j hj hsj]
    unfold stateRewardOf
    rw [if_neg hs, if_neg hs, if_neg (by omega : ¬k = 1),
      if_neg (by omega : ¬(ss.take (j + 1)).count s = 1)]
    have hcast : (k : ℚ) < ((ss.take (j + 1)).count s : ℚ) := by exact_mod_cast hkj
    nlinarith

/-- Witness for C6 on the tick stream `A B A A`: the first tick of `A`
pays 50 iff its running count is 1, and the fourth tick (third visit of
`A`) receives a strictly smaller reward than the third tick (second
visit). -/
theorem novelty_reward_once_then_decreasing_witness :
    ((tickRewards ["A", "B", "A", "A"]).getD 0 0 = 50 ↔
      ((["A", "B", "A", "A"].take 1).count "A") = 1) ∧
    (tickRewards ["A", "B", "A", "A"]).getD 3 0 <
      (tickRewards ["A", "B", "A", "A"]).getD 2 0 :=
  ⟨(novelty_reward_once_then_decreasing ["A", "B", "A", "A"] "A" (by decide) 0
      (by decide) (by decide)).1,
   (novelty_reward_once_then_decreasing ["A", "B", "A", "A"] "A" (by decide) 2
      (by decide) (by decide)).2.2 3 (by decide) (by decide) (by decide) (by decide)⟩

/-- C7 counterexample: the reader returns a bare integer, not the spec's
`(score, ok)` pair: its value on a timeout equals its value on a
successful `"0"` reply, while the spec pair distinguishes them — so no
reading of the code's return can be the claimed `(0, false)`. -/
theorem fetch_ok_flag_refuted :
    get_artifact_count NetOutcome.timedOut = get_artifact_count (NetOutcome.response "0") ∧
    fetchSpec NetOutcome.timedOut ≠ fetchSpec (NetOutcome.response "0") ∧
    ¬ ∃ f : ℤ → ℤ × Bool, ∀ o, f (get_artifact_count o) = fetchSpec o := by
  refine ⟨by decide, by decide, ?_⟩
  rintro ⟨f, hf⟩
  have h1 := hf NetOutcome.timedOut
  have h2 := hf (NetOutcome.response "0")
  rw [show get_artifact_count NetOutcome.timedOut = 0 from by decide] at h1
  rw [show get_artifact_count (NetOutcome.response "0") = 0 from by decide] at h2
  exact absurd (h1.symm.trans h2) (by decide)

/-- C7 amended: on every failing outcome — refused connection, timeout,
or a malformed response — the reader returns the bare safe default `0`
(no availability flag exists in the return), it is a total function (no
error ever propagates into the exploration loop), and the configured
socket timeout is `0.5` seconds, sub-second. -/
theorem fetch_safe_default (o : NetOutcome)
    (h : o = NetOutcome.refused ∨ o = NetOutcome.timedOut ∨
         ∃ data, o = NetOutcome.response data ∧ pyParseInt data = none) :
    get_artifact_count o = 0 ∧ clientTimeout < 1 := by
  refine ⟨?_, by norm_num [clientTimeout]⟩
  rcases h with rfl | rfl | ⟨data, rfl, hdata⟩
  · rfl
  · rfl
  · simp [get_artifact_count, hdata]

/-- Witness for the amended C7: a malformed reply yields `0`. -/
theorem fetch_safe_default_witness :
    get_artifact_count (NetOutcome.response "garbage") = 0 ∧ clientTimeout < 1 :=
  fetch_safe_default (NetOutcome.response "garbage")
    (Or.inr (Or.inr ⟨"garbage", rfl, by decide⟩))

/-- C2 (code bug). When the kernel-probe attach fails, `start_trace`
logs the error and marks the tracer not running, but raises nothing; the
controller never consults the outcome and still launches the target
application (its milestone trace is identical to the successful-attach
one), so a failed attach is not fatal to the session. -/
theorem tracer_attach_failure_not_fatal :
    (start_trace false).running = false ∧
    (start_trace false).error_logged = true ∧
    RunOp.launchTarget ∈ runPrefixOps false true ∧
    runPrefixOps false true = runPrefixOps true true := by decide

/-- C8. A single target crash (agent alive, no separate agent death in
the same tick) performs exactly one target relaunch and exactly one agent
relaunch and continues the session; the agent is killed before the target
relaunch (explicit operation order); and if the target relaunch fails,
the agent is not relaunched and the session aborts. -/
theorem self_healing_single_restart (fa fd : Bool) (hfd : fd = false) :
    ((monitorTick false fa true fd).1.count SupOp.launchTarget = 1 ∧
     (monitorTick false fa true fd).1.count SupOp.launchFuzzer = 1 ∧
     (monitorTick false fa true fd).2 = false) ∧
    (fa = true → monitorTick false true true fd =
      ([SupOp.killFuzzer, SupOp.resetInputs, SupOp.launchTarget, SupOp.launchFuzzer],
       false)) ∧
    ((monitorTick false fa false fd).1.count SupOp.launchTarget = 1 ∧
     (monitorTick false fa false fd).1.count SupOp.launchFuzzer = 0 ∧
     (monitorTick false fa false fd).2 = true) := by
  subst hfd
  cases fa <;> decide

/-- Witness for C8: the healthy-agent case performs, in order, kill
fuzzer, reset inputs, relaunch target, relaunch fuzzer — once each. -/
theorem self_healing_single_restart_witness :
    monitorTick false true true false =
      ([SupOp.killFuzzer, SupOp.resetInputs, SupOp.launchTarget, SupOp.launchFuzzer],
       false) :=
  (self_healing_single_restart true false rfl).2.1 rfl

theorem popScannable_sub (attrs : ℕ → Option NodeAttr)
    (visited : List (String × String × ℤ × ℤ)) :
    ∀ (queue : List (ℕ × ℕ)) (pnd : ℕ × ℕ) (na : NodeAttr) (rest : List (ℕ × ℕ)),
      popScannable attrs visited queue = some (pnd, na, rest) →
      pnd ∈ queue ∧ ∀ x ∈ rest, x ∈ queue := by
  intro queue
  induction queue with
  | nil => intro pnd na rest h; cases h
  | cons hd tl ih =>
    intro pnd na rest h
    obtain ⟨n, d⟩ := hd
    rw [popScannable] at h
    cases hattrs : attrs n with
    | none =>
      rw [hattrs] at h
      obtain ⟨h1, h2⟩ := ih pnd na rest h
      exact ⟨List.mem_cons_of_mem _ h1, fun x hx => List.mem_cons_of_mem _ (h2 x hx)⟩
    | some na2 =>
      rw [hattrs] at h
      dsimp only at h
      by_cases hv : identOf na2 ∈ visited
      · rw [if_pos hv] at h
        obtain ⟨h1, h2⟩ := ih pnd na rest h
        exact ⟨List.mem_cons_of_mem _ h1, fun x hx => List.mem_cons_of_mem _ (h2 x hx)⟩
      · rw [if_neg hv] at h
        rcases Option.some.inj h with heq
        have hpnd : pnd = (n, d) := (congrArg (fun t => t.1) heq).symm
        have hrest : rest = tl := (congrArg (fun t => t.2.2) heq).symm
        subst hpnd
        subst hrest
        exact ⟨List.mem_cons_self _ _, fun x hx => List.mem_cons_of_mem _ hx⟩

theorem bfsRun_bounds (F : UIForest) (kb : List String) :
    ∀ (r : ℕ) (queue : List (ℕ × ℕ)) (visited : List (String × String × ℤ × ℤ)),
      (∀ p ∈ queue, p.2 ≤ 3) →
      ((bfsRun F kb r queue visited).1.length ≤ r ∧
       ∀ p ∈ (bfsRun F kb r queue visited).1, p.2 ≤ 3) := by
  intro r
  induction r with
  | zero =>
    intro queue visited _
    exact ⟨Nat.le_refl 0, fun p hp => by cases hp⟩
  | succ r ih =>
    intro queue visited hq
    rw [bfsRun]
    cases hpop : popScannable F.attrsOf visited queue with
    | none => exact ⟨Nat.zero_le _, fun p hp => by cases hp⟩
    | some triple =>
      obtain ⟨⟨n, d⟩, na, rest⟩ := triple
      obtain ⟨hmem, hsub⟩ := popScannable_sub F.attrsOf visited queue (n, d) na rest hpop
      have hd3 : d ≤ 3 := hq (n, d) hmem
      have hnext : ∀ p ∈ (if d < 3 then rest ++ (F.childrenOf n).map (fun c => (c, d + 1))
          else rest), p.2 ≤ 3 := by
        intro p hp
        split at hp
        · rcases List.mem_append.mp hp with h | h
          · exact hq p (hsub p h)
          · rcases List.mem_map.mp h with ⟨c, _, rfl⟩
            rename_i hdlt
            omega
        · exact hq p (hsub p hp)
      obtain ⟨ihlen, ihmem⟩ := ih _ (identOf na :: visited) hnext
      constructor
      · simpa using Nat.succ_le_succ ihlen
      · intro p hp
        rcases List.mem_cons.mp hp with rfl | hp2
        · exact hd3
        · exact ihmem p hp2

/-- C9. For every accessibility forest (arbitrary, possibly cyclic child
graph) and start node, the crawler's candidate search visits no node at
BFS depth ≥ 4 relative to the start (max traversal depth 3) and visits at
most the hard ceiling of `scan_limit = 100` nodes; being a total
function, the traversal terminates on every input. -/
theorem crawler_depth_and_node_bounds (F : UIForest) (kb : List String) (root : ℕ) :
    (getInteractable F kb root).1.length ≤ scanLimit ∧
    ∀ p ∈ (getInteractable F kb root).1, p.2 ≤ 3 :=
  bfsRun_bounds F kb scanLimit [(root, 0)] []
    (fun p hp => by rcases List.mem_singleton.mp hp with rfl; exact Nat.zero_le 3)

/-- Witness for C9 on a depth-10 (in fact infinite) chain
`n ↦ [n + 1]`: the scan list is bounded by the ceiling, and the chain
node reached at depth 3 — which is visited — satisfies the depth bound;
nodes at depth 4 or more never enter the scan list. -/
theorem crawler_depth_and_node_bounds_witness :
    (getInteractable ⟨fun n => [n + 1], fun n => some ⟨"", "push button", (n : ℤ), 0, 5, 5⟩⟩
        [] 0).1.length ≤ scanLimit ∧
    (((3 : ℕ), (3 : ℕ)) : ℕ × ℕ).2 ≤ 3 :=
  ⟨(crawler_depth_and_node_bounds
      ⟨fun n => [n + 1], fun n => some ⟨"", "push button", (n : ℤ), 0, 5, 5⟩⟩ [] 0).1,
   (crawler_depth_and_node_bounds
      ⟨fun n => [n + 1], fun n => some ⟨"", "push button", (n : ℤ), 0, 5, 5⟩⟩ [] 0).2
      (3, 3) (by decide)⟩

theorem forensic_score_ge_half (env : FsEnv) (p : String) :
    1 / 2 ≤ calculate_forensic_score env p := by
  unfold calculate_forensic_score
  split_ifs <;> norm_num

theorem targetBonus_nonneg (env : FsEnv) (targets : List TargetRule) (p : String) :
    0 ≤ targetBonus env targets p := by
  unfold targetBonus
  split_ifs <;> norm_num

theorem perEventScore_pos (env : FsEnv) (targets : List TargetRule) (e : FileEvent) :
    0 < perEventScore env targets e := by
  have h1 := forensic_score_ge_half env e.filename
  have h2 := targetBonus_nonneg env targets e.filename
  unfold perEventScore
  linarith

theorem batch_sum_nonneg (env : FsEnv) (targets : List TargetRule)
    (events : List FileEvent) :
    ∀ acc : ℚ, 0 ≤ acc →
      0 ≤ events.foldl (fun acc e => acc + perEventScore env targets e) acc := by
  induction events with
  | nil => intro acc h; exact h
  | cons e rest ih =>
    intro acc h
    refine ih _ ?_
    have := perEventScore_pos env targets e
    dsimp only
    linarith

theorem calculate_reward_nonneg (env : FsEnv) (targets : List TargetRule)
    (events : List FileEvent) : 0 ≤ calculate_reward env targets events := by
  unfold calculate_reward pyInt
  have hsum := batch_sum_nonneg env targets events 0 le_rfl
  rw [if_neg (not_lt.mpr hsum)]
  exact Int.floor_nonneg.mpr hsum

theorem publishedScores_mono (env : FsEnv) (targets : List TargetRule) :
    ∀ (batches : List (List FileEvent)) (total : ℤ),
      List.Chain' (· ≤ ·) (publishedScores env targets total batches) ∧
      ∀ x ∈ publishedScores env targets total batches, total ≤ x := by
  intro batches
  induction batches with
  | nil => intro total; exact ⟨List.chain'_nil, fun x hx => by cases hx⟩
  | cons batch rest ih =>
    intro total
    rw [publishedScores]
    split
    · exact ih total
    · obtain ⟨ihchain, ihle⟩ := ih (total + calculate_reward env targets batch)
      have hr := calculate_reward_nonneg env targets batch
      constructor
      · refine List.chain'_cons'.mpr ⟨?_, ihchain⟩
        intro y hy
        exact ihle y (List.mem_of_mem_head? hy)
      · intro x hx
        rcases List.mem_cons.mp hx with rfl | hx2
        · linarith
        · have := ihle x hx2
          linarith

/-- C10. Every per-event score is strictly positive (base forensic score
at least 0.5, target bonus nonnegative), every batch reward is
nonnegative, and the cumulative score published over the feedback channel
is pairwise monotonically non-decreasing across the ticks of a session:
each published value is ≥ every previously published value. -/
theorem published_score_monotone (env : FsEnv) (targets : List TargetRule)
    (batches : List (List FileEvent)) :
    (∀ p, 1 / 2 ≤ calculate_forensic_score env p) ∧
    (∀ p, 0 ≤ targetBonus env targets p) ∧
    (∀ e, 0 < perEventScore env targets e) ∧
    (∀ evs, 0 ≤ calculate_reward env targets evs) ∧
    List.Pairwise (· ≤ ·) (sessionPublished env targets batches) :=
  ⟨fun p => forensic_score_ge_half env p,
   fun p => targetBonus_nonneg env targets p,
   fun e => perEventScore_pos env targets e,
   fun evs => calculate_reward_nonneg env targets evs,
   List.chain'_iff_pairwise.mp (publishedScores_mono env targets batches 0).1⟩

/-- Witness for C10: a concrete three-tick session (one batch empty) has
a pairwise non-decreasing published sequence, and a vanished path scores
at least 0.5. -/
theorem published_score_monotone_witness :
    (1 : ℚ) / 2 ≤ calculate_forensic_score
      ⟨fun _ => false, fun _ => false, fun _ => 0, fun _ => none⟩ "/tmp/gone" ∧
    List.Pairwise (· ≤ ·) (sessionPublished
      ⟨fun _ => false, fun _ => false, fun _ => 0, fun _ => none⟩ []
      [[⟨0, 1, "p", "OPEN", "/tmp/a"⟩], [],
       [⟨2, 1, "p", "OPEN", "/tmp/b"⟩, ⟨3, 1, "p", "DELETE", "/tmp/a"⟩]]) :=
  ⟨(published_score_monotone
      ⟨fun _ => false, fun _ => false, fun _ => 0, fun _ => none⟩ [] []).1 "/tmp/gone",
   (published_score_monotone
      ⟨fun _ => false, fun _ => false, fun _ => 0, fun _ => none⟩ []
      [[⟨0, 1, "p", "OPEN", "/tmp/a"⟩], [],
       [⟨2, 1, "p", "OPEN", "/tmp/b"⟩, ⟨3, 1, "p", "DELETE", "/tmp/a"⟩]]).2.2.2.2⟩

end FuzzArt
